import Mathlib

/-!
Verification development for the `yaml-schemas` VS Code extension
(`src/extension.ts`, `src/schemaTemplates.ts`).

The development shallowly embeds the schema-template resolution engine:

* a generic JSON tree (`Json`) standing for the values produced by
  `JSON.parse`;
* the template-substitution walker `traverse` of `processSchemaTemplate`
  (extension.ts lines 39-63), parameterised by the enum resolver
  (an async collaborator in the source);
* the enum resolver `resolveEnum` (extension.ts lines 71-93),
  parameterised by the loaded record sequence (the file read and
  `yaml.load` are external collaborators) and by the `eval`-compiled
  expression transform (an unsandboxed black box in the source);
* the template registry `SchemaTemplates` (extension.ts lines 17-34,
  schemaTemplates.ts), with a JS-`Map`-faithful association list
  (insertion order preserved, `set` on an existing key updates in place);
* the loader `loadSchemas` (extension.ts lines 95-115), parameterised by
  the directory listing, file contents and the `JSON.parse` collaborator;
* the resolution address codec: the URI built at extension.ts line 172
  and the extraction performed by `onRequestSchemaContent`
  (extension.ts lines 175-203), over a model of `Uri.parse`
  (the parsing regex of vscode-uri, percent-decoding omitted — template
  names are therefore restricted to percent-free characters in the
  round-trip statements), JS `String.split`, JS `parseInt` and JS
  `Array.prototype.at`.
-/

namespace YamlSchemas

/-- A parsed JSON document, as produced by `JSON.parse`: numbers are
modelled as integers (no claim depends on fractional values), objects as
association lists in key insertion order (`JSON.parse` yields unique
keys; `for..in` enumerates them in insertion order). -/
inductive Json where
  | null
  | bool (b : Bool)
  | num (n : Int)
  | str (s : String)
  | arr (elems : List Json)
  | obj (entries : List (String × Json))

theorem sizeOf_lt_of_mem_arr {x : Json} {xs : List Json} (h : x ∈ xs) :
    sizeOf x < sizeOf (Json.arr xs) := by
  have := List.sizeOf_lt_of_mem h
  simp only [Json.arr.sizeOf_spec]
  omega

theorem sizeOf_lt_of_mem_obj {p : String × Json} {kvs : List (String × Json)}
    (h : p ∈ kvs) : sizeOf p.2 < sizeOf (Json.obj kvs) := by
  have h1 := List.sizeOf_lt_of_mem h
  have h2 : sizeOf p.2 < sizeOf p := by
    obtain ⟨k, v⟩ := p
    simp only [Prod.mk.sizeOf_spec]
    have : 0 < sizeOf k := by cases k; simp only [String.mk.sizeOf_spec]; omega
    omega
  simp only [Json.obj.sizeOf_spec]
  omega

/-- First binding of a key in an object's entry list: the value JavaScript
property access `obj[key]` observes (`JSON.parse` output has unique keys). -/
def lookupKey (k : String) : List (String × Json) → Option Json
  | [] => none
  | p :: rest => if p.1 = k then some p.2 else lookupKey k rest

/-- JS property assignment `obj[k] = v` on an object entry list: if the key
is present its value is updated in place (position preserved), otherwise the
pair is appended at the end (insertion order). -/
def setKey (kvs : List (String × Json)) (k : String) (v : Json) :
    List (String × Json) :=
  if kvs.any (fun p => p.1 = k) then
    kvs.map (fun p => if p.1 = k then (k, v) else p)
  else
    kvs ++ [(k, v)]

/-- JS `delete obj[k]`: removes the binding of `k`. -/
def delKey (kvs : List (String × Json)) (k : String) : List (String × Json) :=
  kvs.filter (fun p => p.1 ≠ k)

/-- The reserved enum-source marker key (`const enumField = "enumSource"`,
extension.ts line 40). -/
def enumField : String := "enumSource"

/-- The recursive walker `traverse` of `processSchemaTemplate`
(extension.ts lines 43-58), parameterised by the enum resolver `res`
(`resolveEnum` applied to the ambient data root in the source).  For an
object node the `for..in` loop: recurses into every value whose key is not
the marker (scalars are skipped, `typeof` of arrays and nested objects is
`'object'`); on the marker key it writes `obj['enum'] = res(directive)` —
an in-place update when an `enum` binding exists, an append otherwise —
and deletes the marker binding.  The marker's own value subtree is
consumed, never recursed into.  Arrays are walked element-wise
(`for..in` over indices).  When the `enum` binding is written before the
loop reaches a pre-existing `enum` key, the loop later walks the written
value, an array of strings, which the walk leaves unchanged, so writing
the resolved array last (as here) is observably the same. -/
def traverse (res : Json → List String) : Json → Json
  | .null => .null
  | .bool b => .bool b
  | .num n => .num n
  | .str s => .str s
  | .arr xs => .arr (xs.attach.map (fun x => traverse res x.1))
  | .obj kvs =>
      let kvs2 := kvs.attach.map (fun p =>
        if p.1.1 = enumField then p.1 else (p.1.1, traverse res p.1.2))
      match lookupKey enumField kvs with
      | some src => .obj (setKey (delKey kvs2 enumField) "enum"
          (.arr ((res src).map Json.str)))
      | none => .obj kvs2
termination_by j => sizeOf j
decreasing_by
  · exact sizeOf_lt_of_mem_arr x.2
  · exact sizeOf_lt_of_mem_obj p.2

/-- Unfolding of `traverse` on arrays without `attach`. -/
theorem traverse_arr (res : Json → List String) (xs : List Json) :
    traverse res (.arr xs) = .arr (xs.map (traverse res)) := by
  rw [traverse]
  simp [List.map_subtype]

/-- Unfolding of `traverse` on objects without `attach`. -/
theorem traverse_obj (res : Json → List String) (kvs : List (String × Json)) :
    traverse res (.obj kvs) =
      (match lookupKey enumField kvs with
      | some src => Json.obj (setKey (delKey (kvs.map (fun p =>
          if p.1 = enumField then p else (p.1, traverse res p.2))) enumField)
          "enum" (.arr ((res src).map Json.str)))
      | none => Json.obj (kvs.map (fun p =>
          if p.1 = enumField then p else (p.1, traverse res p.2)))) := by
  rw [traverse]
  simp only [List.map_subtype, List.unattach_attach]

/-- `processSchemaTemplate` (extension.ts lines 39-63) on the parsed
template tree: `JSON.parse`/`JSON.stringify` at the text boundary are the
host's; the tree transformation is `traverse`. -/
def processSchemaTemplate (res : Json → List String) (templateObj : Json) :
    Json :=
  traverse res templateObj

/-- Does the key `k` occur as an object key anywhere in the tree (at any
nesting depth, through arrays and nested objects)? -/
def hasKeyDeep (k : String) : Json → Bool
  | .null => false
  | .bool _ => false
  | .num _ => false
  | .str _ => false
  | .arr xs => xs.attach.any (fun x => hasKeyDeep k x.1)
  | .obj kvs => kvs.attach.any (fun p => p.1.1 = k || hasKeyDeep k p.1.2)
termination_by j => sizeOf j
decreasing_by
  · exact sizeOf_lt_of_mem_arr x.2
  · exact sizeOf_lt_of_mem_obj p.2

theorem hasKeyDeep_arr (k : String) (xs : List Json) :
    hasKeyDeep k (.arr xs) = xs.any (hasKeyDeep k) := by
  rw [hasKeyDeep]
  simp [List.any_eq, List.mem_attach]

theorem hasKeyDeep_obj (k : String) (kvs : List (String × Json)) :
    hasKeyDeep k (.obj kvs) =
      kvs.any (fun p => decide (p.1 = k) || hasKeyDeep k p.2) := by
  rw [hasKeyDeep]
  simp [List.any_eq, List.mem_attach]

/-- The string JavaScript's `String(x)`/`x.toString()` yields when used as
an array element by `Array.prototype.toString` (`join(',')`): `null`
elements become the empty string there. -/
def jsElemStr : Json → String
  | .null => ""
  | .bool b => if b then "true" else "false"
  | .num n => toString n
  | .str s => s
  | .arr xs => String.intercalate "," (xs.attach.map (fun x => jsElemStr x.1))
  | .obj _ => "[object Object]"
termination_by j => sizeOf j
decreasing_by
  exact sizeOf_lt_of_mem_arr x.2

/-- JS `x.toString()`: throws a `TypeError` (modelled as `none`) on `null`
and `undefined`; otherwise the usual JS stringification. -/
def jsToStrOpt : Json → Option String
  | .null => none
  | .bool b => some (if b then "true" else "false")
  | .num n => some (toString n)
  | .str s => some s
  | .arr xs => some (String.intercalate "," (xs.map jsElemStr))
  | .obj _ => some "[object Object]"

/-- JS property read `i[prop]` on a loaded record: a binding for objects,
`undefined` (here `none`) otherwise. -/
def jsIndex (j : Json) (k : String) : Option Json :=
  match j with
  | .obj kvs => lookupKey k kvs
  | _ => none

/-- One step of the projection strategy, `i[prop].toString()`
(extension.ts line 78): `none` when the record lacks the field or holds
`null` there (the `.toString()` call throws). -/
def getFieldStr (p : String) (r : Json) : Option String :=
  (jsIndex r p).bind jsToStrOpt

/-- The `EnumSource` directive type (extension.ts lines 65-69).  The
`file` path feeds the external loader and plays no role once the record
sequence is supplied. -/
structure EnumSource where
  file : String
  property : Option String
  expression : Option String

/-- JS truthiness of an optional string field: `undefined` and the empty
string are falsy (`if (enumSource.property)`, extension.ts line 76). -/
def truthy : Option String → Bool
  | none => false
  | some s => s ≠ ""

/-- `resolveEnum` (extension.ts lines 71-93) after the external phases:
the file read and `yaml.load` collaborators are summarised by the loaded
record sequence `records`, and `eval` — which compiles the author-supplied
expression text into a one-argument transform, an unsandboxed black box —
by the parameter `evalFn`.  A `none` result models a thrown error
(rejected promise), which fails the whole directive's resolution. -/
def resolveEnum (evalFn : String → Json → Json) (src : EnumSource)
    (records : List Json) : Option (List String) :=
  if truthy src.property then
    records.mapM (getFieldStr (src.property.getD ""))
  else if truthy src.expression then
    records.mapM (fun r => jsToStrOpt (evalFn (src.expression.getD "") r))
  else
    some []

/-- A registered schema template (extension.ts lines 11-15): `name` is the
template file's own name, `filePattern` whatever JSON value the parsed
template document held under `filePattern` (the TS type says `string`,
but nothing checks that at runtime), `schema` the raw template text. -/
structure SchemaTemplate where
  name : String
  filePattern : Json
  schema : String

/-- JS strict equality `filePattern === fileName` against a string: true
exactly when the stored pattern is that string. -/
def jsStrEq (j : Json) (s : String) : Bool :=
  match j with
  | .str t => t = s
  | _ => false

/-- JS `Map.set m k v`: updates the value in place when the key is present
(iteration position preserved), otherwise appends the binding. -/
def mapSet (m : List (String × SchemaTemplate)) (k : String)
    (v : SchemaTemplate) : List (String × SchemaTemplate) :=
  if m.any (fun p => p.1 = k) then
    m.map (fun p => if p.1 = k then (k, v) else p)
  else
    m ++ [(k, v)]

/-- The `SchemaTemplates` constructor (extension.ts lines 19-21,
schemaTemplates.ts lines 4-6): inserts every template into the
name-keyed map in list order. -/
def buildTemplates (ts : List SchemaTemplate) : List (String × SchemaTemplate) :=
  ts.foldl (fun m t => mapSet m t.name t) []

/-- `Map.values()` in key insertion order. -/
def mapValues (m : List (String × SchemaTemplate)) : List SchemaTemplate :=
  m.map (fun p => p.2)

/-- `SchemaTemplates.getBySchemaName` (extension.ts lines 23-25). -/
def getBySchemaName (m : List (String × SchemaTemplate)) (name : String) :
    Option SchemaTemplate :=
  (m.find? (fun p => p.1 = name)).map (fun p => p.2)

/-- `SchemaTemplates.matchByFileName` (extension.ts lines 27-33,
schemaTemplates.ts lines 12-18): first registered template whose
`filePattern` strictly equals the file name; `undefined` when none does. -/
def matchByFileName (m : List (String × SchemaTemplate)) (fileName : String) :
    Option SchemaTemplate :=
  (mapValues m).find? (fun t => jsStrEq t.filePattern fileName)

/-- `vscode.FileType` (only the `file` case matters to the loader). -/
inductive FileType where
  | unknown
  | file
  | directory
  | symbolicLink
deriving DecidableEq

/-- `loadSchemas` (extension.ts lines 95-115) after the external phases:
the directory enumeration is the `entries` list, the file reads the
`read` map, and `JSON.parse` the collaborator `parse` (`none` models a
thrown `SyntaxError`).  A thrown parse error rejects the whole load:
the result is `none` and no registry is produced. -/
def loadSchemas (parse : String → Option Json) (read : String → String) :
    List (String × FileType) → Option (List SchemaTemplate)
  | [] => some []
  | (n, ft) :: rest =>
    if ft = FileType.file then
      match parse (read n) with
      | none => none
      | some schemaObj =>
        (loadSchemas parse read rest).map
          (fun ts => { name := n,
                       filePattern := (jsIndex schemaObj "filePattern").getD .null,
                       schema := read n } :: ts)
    else
      loadSchemas parse read rest

/-- Longest prefix free of the characters in `specials`, together with the
rest of the input (which starts with the first special character when one
occurs). -/
def splitBefore (specials : List Char) : List Char → List Char × List Char
  | [] => ([], [])
  | c :: cs =>
    if c ∈ specials then ([], c :: cs)
    else
      let p := splitBefore specials cs
      (c :: p.1, p.2)

/-- The components of a parsed URI that the engine reads. -/
structure UriParts where
  scheme : String
  authority : String
  path : String
  query : String

/-- Model of `vscode.Uri.parse`: the matching regex of vscode-uri,
`^(([^:/?#]+?):)?(\x2f\x2f([^/?#]*))?([^?#]*)(\?([^#]*))?(#(.*))?`,
evaluated on the input (percent-decoding of the components omitted; the
statements below restrict template names accordingly). -/
def uriParse (s : String) : UriParts :=
  let cs := s.data
  let sp := splitBefore [':', '/', '?', '#'] cs
  let schemeRest : List Char × List Char :=
    match sp.2 with
    | ':' :: r => if sp.1 = [] then ([], cs) else (sp.1, r)
    | _ => ([], cs)
  let authRest : List Char × List Char :=
    match schemeRest.2 with
    | '/' :: '/' :: r => splitBefore ['/', '?', '#'] r
    | r => ([], r)
  let pq := splitBefore ['?', '#'] authRest.2
  let query : List Char :=
    match pq.2 with
    | '?' :: r => (splitBefore ['#'] r).1
    | _ => []
  { scheme := String.mk schemeRest.1,
    authority := String.mk authRest.1,
    path := String.mk pq.1,
    query := String.mk query }

/-- JS `String.prototype.split` with a one-character separator:
`"".split(sep)` is `[""]`, separators at the ends produce empty pieces. -/
def splitOnChar (sep : Char) : List Char → List (List Char)
  | [] => [[]]
  | c :: cs =>
    let r := splitOnChar sep cs
    if c = sep then [] :: r
    else
      match r with
      | h :: t => (c :: h) :: t
      | [] => [[c]]

/-- The custom URI scheme (`const SCHEMA = "myschema"`, extension.ts
line 7). -/
def SCHEMA : String := "myschema"

/-- The selector query parameter name (`workspaceFolderQueryParam`,
extension.ts line 37). -/
def workspaceFolderQueryParam : String := "workspaceFolder"

/-- The address string built by `onRequestSchemaURI` (extension.ts
line 172) for a matched template name and workspace-folder index. -/
def mkSchemaUri (templateName : String) (index : Nat) : String :=
  SCHEMA ++ "://schema/" ++ templateName ++ "?" ++ workspaceFolderQueryParam
    ++ "=" ++ toString index

/-- The address-extraction part of `onRequestSchemaContent` (extension.ts
lines 177-198): parse the URI; return silently on a foreign scheme; take
the last `/`-separated path segment as the template name, report malformed
when it is empty; scan the `&`-separated, `=`-split query for the first
group headed `workspaceFolder` and take its second piece, reporting
malformed when there is no such group, no second piece, or an empty one.
The selector is returned as the extracted string — `parseInt` happens at
indexing time (line 199). -/
def extractSchemaAddress (schemaUri : String) : Option (String × String) :=
  let u := uriParse schemaUri
  if u.scheme ≠ SCHEMA then none
  else
    let schemaName := (splitOnChar '/' u.path.data).getLastD []
    if schemaName = [] then none
    else
      let groups := (splitOnChar '&' u.query.data).map (splitOnChar '=')
      match groups.find? (fun v => v.headD [] = workspaceFolderQueryParam.data) with
      | none => none
      | some v =>
        match v.get? 1 with
        | none => none
        | some idx => if idx = [] then none
                      else some (String.mk schemaName, String.mk idx)

/-- JS `parseInt(s)` restricted to integer outputs: skip whitespace, an
optional sign, a hexadecimal body after `0x`/`0X`, else the longest
decimal-digit prefix; `none` models `NaN` (no digits at all). -/
def jsDigitsToNat (ds : List Char) : Nat :=
  ds.foldl (fun a c => a * 10 + (c.toNat - '0'.toNat)) 0

def jsHexToNat (ds : List Char) : Nat :=
  ds.foldl (fun a c =>
    a * 16 + (if c.isDigit then c.toNat - '0'.toNat
              else if 'a' ≤ c ∧ c ≤ 'f' then c.toNat - 'a'.toNat + 10
              else c.toNat - 'A'.toNat + 10)) 0

/-- Longest decimal-digit prefix, `none` when there is none (`NaN`). -/
def decPrefix (cs : List Char) : Option Nat :=
  let ds := cs.takeWhile Char.isDigit
  if ds = [] then none else some (jsDigitsToNat ds)

def jsParseIntBody (cs : List Char) : Option Nat :=
  match cs with
  | c1 :: c2 :: rest =>
    if c1 = '0' ∧ (c2 = 'x' ∨ c2 = 'X') then
      let hs := rest.takeWhile (fun c =>
        c.isDigit ∨ ('a' ≤ c ∧ c ≤ 'f') ∨ ('A' ≤ c ∧ c ≤ 'F'))
      if hs = [] then none else some (jsHexToNat hs)
    else decPrefix (c1 :: c2 :: rest)
  | _ => decPrefix cs

def jsParseInt (s : String) : Option Int :=
  let cs := s.data.dropWhile Char.isWhitespace
  if cs.headD ' ' = '-' then (jsParseIntBody cs.tail).map (fun n => -(n : Int))
  else if cs.headD ' ' = '+' then
    (jsParseIntBody cs.tail).map (fun n => (n : Int))
  else (jsParseIntBody cs).map (fun n => (n : Int))

/-- JS `Array.prototype.at(i)` where `i` is the (possibly `NaN`, possibly
negative) result of `parseInt`: `NaN` is converted to `0` by
`ToIntegerOrInfinity`, a negative index counts from the end, out of range
yields `undefined`. -/
def jsAt {α : Type} (l : List α) (i : Option Int) : Option α :=
  match i with
  | none => l.get? 0
  | some i =>
    if 0 ≤ i then l.get? i.toNat
    else if i.natAbs ≤ l.length then l.get? (l.length - i.natAbs)
    else none

/-- `vscode.workspace.workspaceFolders?.at(parseInt(workspaceFolderIndex))`
(extension.ts line 199). -/
def resolveFolder {α : Type} (folders : List α) (idxStr : String) : Option α :=
  jsAt folders (jsParseInt idxStr)

/-! ### Helper lemmas -/

theorem json_sizeOf_ind (P : Json → Prop)
    (h : ∀ j, (∀ k, sizeOf k < sizeOf j → P k) → P j) : ∀ j, P j
  | j => h j (fun k _ => json_sizeOf_ind P h k)
termination_by j => sizeOf j
decreasing_by assumption

/-- The entry list of an object node (empty for other nodes). -/
def objEntries : Json → List (String × Json)
  | .obj kvs => kvs
  | _ => []

theorem lookupKey_eq_none {k : String} {l : List (String × Json)} :
    lookupKey k l = none ↔ ∀ p ∈ l, p.1 ≠ k := by
  induction l with
  | nil => simp [lookupKey]
  | cons h t ih =>
    obtain ⟨k', v⟩ := h
    by_cases hk : k' = k <;> simp [lookupKey, hk, ih]

theorem lookupKey_append_of_absent {l : List (String × Json)} {k : String}
    {v : Json} (h : ∀ p ∈ l, p.1 ≠ k) :
    lookupKey k (l ++ [(k, v)]) = some v := by
  induction l with
  | nil => simp [lookupKey]
  | cons q t ih =>
    rw [List.cons_append, lookupKey]
    rw [if_neg (h q (List.mem_cons_self q t))]
    exact ih (fun p hp => h p (List.mem_cons_of_mem q hp))

theorem lookupKey_map_set {l : List (String × Json)} {k : String} {v : Json}
    (h : ∃ p ∈ l, p.1 = k) :
    lookupKey k (l.map (fun p => if p.1 = k then (k, v) else p)) = some v := by
  induction l with
  | nil => simp at h
  | cons q t ih =>
    by_cases hq : q.1 = k
    · simp only [List.map_cons, if_pos hq]
      rw [lookupKey, if_pos rfl]
    · simp only [List.map_cons, if_neg hq]
      rw [lookupKey, if_neg hq]
      apply ih
      obtain ⟨p, hp, hpk⟩ := h
      rcases List.mem_cons.mp hp with rfl | hpt
      · exact absurd hpk hq
      · exact ⟨p, hpt, hpk⟩

theorem lookupKey_setKey_self (l : List (String × Json)) (k : String)
    (v : Json) : lookupKey k (setKey l k v) = some v := by
  unfold setKey
  by_cases h : (l.any (fun p => p.1 = k)) = true
  · rw [if_pos h]
    rw [List.any_eq_true] at h
    apply lookupKey_map_set
    obtain ⟨p, hp, hpk⟩ := h
    exact ⟨p, hp, by simpa using hpk⟩
  · rw [if_neg h]
    rw [List.any_eq_true] at h
    push_neg at h
    exact lookupKey_append_of_absent (fun p hp => by simpa using h p hp)

theorem mem_setKey {q : String × Json} {l : List (String × Json)} {k : String}
    {v : Json} (h : q ∈ setKey l k v) : q = (k, v) ∨ q ∈ l := by
  unfold setKey at h
  by_cases ha : (l.any (fun p => p.1 = k)) = true
  · rw [if_pos ha] at h
    rw [List.mem_map] at h
    obtain ⟨p, hp, hpq⟩ := h
    by_cases hpk : p.1 = k
    · rw [if_pos hpk] at hpq
      exact Or.inl hpq.symm
    · rw [if_neg hpk] at hpq
      exact Or.inr (hpq ▸ hp)
  · rw [if_neg ha] at h
    rcases List.mem_append.mp h with h2 | h2
    · exact Or.inr h2
    · exact Or.inl (List.mem_singleton.mp h2)

theorem mem_delKey {q : String × Json} {l : List (String × Json)} {k : String}
    (h : q ∈ delKey l k) : q ∈ l ∧ q.1 ≠ k := by
  unfold delKey at h
  have := List.mem_filter.mp h
  simpa using this

theorem hasKeyDeep_str_arr (k : String) (ss : List String) :
    hasKeyDeep k (.arr (ss.map Json.str)) = false := by
  rw [hasKeyDeep_arr, List.any_eq_false]
  intro x hx
  rw [List.mem_map] at hx
  obtain ⟨s, _, rfl⟩ := hx
  rw [hasKeyDeep]
  exact Bool.false_ne_true

theorem traverse_null (res : Json → List String) :
    traverse res .null = .null := by rw [traverse]

theorem traverse_bool (res : Json → List String) (b : Bool) :
    traverse res (.bool b) = .bool b := by rw [traverse]

theorem traverse_num (res : Json → List String) (n : Int) :
    traverse res (.num n) = .num n := by rw [traverse]

theorem traverse_str (res : Json → List String) (s : String) :
    traverse res (.str s) = .str s := by rw [traverse]

/-! ### C1: the materialized document has no residual marker -/

/-- **C1.** For every enum resolver and template tree, the materialized
document produced by `processSchemaTemplate` contains no `enumSource` key
at any nesting depth (part 1); and every object node holding an
`enumSource` directive is materialized into an object whose `enum` key
holds exactly the resolver's string sequence for that directive
(part 2). -/
theorem processSchemaTemplate_eliminates_enumSource
    (res : Json → List String) :
    (∀ j : Json, hasKeyDeep enumField (processSchemaTemplate res j) = false) ∧
    (∀ (kvs : List (String × Json)) (src : Json),
      lookupKey enumField kvs = some src →
      lookupKey "enum" (objEntries (processSchemaTemplate res (.obj kvs))) =
        some (.arr ((res src).map Json.str))) := by
  have main : ∀ j : Json, hasKeyDeep enumField (traverse res j) = false := by
    apply json_sizeOf_ind
    intro j ih
    match j with
    | .null => rw [traverse, hasKeyDeep]
    | .bool b => rw [traverse, hasKeyDeep]
    | .num n => rw [traverse, hasKeyDeep]
    | .str s => rw [traverse, hasKeyDeep]
    | .arr xs =>
      rw [traverse_arr, hasKeyDeep_arr, List.any_eq_false]
      intro x hx
      rw [List.mem_map] at hx
      obtain ⟨y, hy, rfl⟩ := hx
      exact ne_true_of_eq_false (ih y (sizeOf_lt_of_mem_arr hy))
    | .obj kvs =>
      rw [traverse_obj]
      cases hl : lookupKey enumField kvs with
      | none =>
        simp only
        rw [hasKeyDeep_obj, List.any_eq_false]
        intro q hq
        rw [List.mem_map] at hq
        obtain ⟨p, hp, rfl⟩ := hq
        have hne := lookupKey_eq_none.mp hl p hp
        simp only [if_neg hne, Bool.or_eq_true, decide_eq_true_eq, not_or]
        exact ⟨hne, ne_true_of_eq_false
          (ih p.2 (sizeOf_lt_of_mem_obj hp))⟩
      | some src =>
        simp only
        rw [hasKeyDeep_obj, List.any_eq_false]
        intro q hq
        rcases mem_setKey hq with rfl | hq2
        · simp only [Bool.or_eq_true, decide_eq_true_eq, not_or]
          refine ⟨by decide, ?_⟩
          exact ne_true_of_eq_false (hasKeyDeep_str_arr enumField (res src))
        · obtain ⟨hq3, hqk⟩ := mem_delKey hq2
          rw [List.mem_map] at hq3
          obtain ⟨p, hp, hpq⟩ := hq3
          have hpne : ¬(p.1 = enumField) := by
            intro hpk
            apply hqk
            rw [← hpq]
            simp [hpk]
          rw [if_neg hpne] at hpq
          subst hpq
          simp only [Bool.or_eq_true, decide_eq_true_eq, not_or]
          exact ⟨hpne, ne_true_of_eq_false
            (ih p.2 (sizeOf_lt_of_mem_obj hp))⟩
  refine ⟨main, ?_⟩
  intro kvs src hl
  unfold processSchemaTemplate
  rw [traverse_obj, hl]
  simp only [objEntries]
  exact lookupKey_setKey_self _ _ _

/-- Concrete enum resolver fixture: every directive resolves to
`["a", "b"]`. -/
def resFix : Json → List String := fun _ => ["a", "b"]

/-- A concrete object node holding an enum-source directive. -/
def kvsFix : List (String × Json) :=
  [("enumSource", .obj [("file", .str "data.yaml"), ("property", .str "v")]),
   ("description", .str "d")]

/-- A concrete template with directives nested inside objects and inside an
array element. -/
def tmplFix : Json :=
  .obj [("type", .str "object"),
        ("properties", .obj [("version", .obj kvsFix),
                             ("items", .arr [.obj [("enumSource", .str "x")]])])]

/-- Witness for C1 at a concrete template. -/
theorem processSchemaTemplate_eliminates_enumSource_witness :
    hasKeyDeep enumField (processSchemaTemplate resFix tmplFix) = false ∧
    lookupKey "enum" (objEntries (processSchemaTemplate resFix (.obj kvsFix))) =
      some (.arr [.str "a", .str "b"]) := by
  constructor
  · exact (processSchemaTemplate_eliminates_enumSource resFix).1 tmplFix
  · have h := (processSchemaTemplate_eliminates_enumSource resFix).2 kvsFix
      (.obj [("file", .str "data.yaml"), ("property", .str "v")])
      (by rw [kvsFix, lookupKey]; simp [enumField])
    simpa [resFix] using h

/-! ### C10: frame behaviour of the walker outside the marker keys -/

theorem lookupKey_map_entry {k : String} {res : Json → List String}
    (hk : k ≠ enumField) (kvs : List (String × Json)) :
    lookupKey k (kvs.map (fun p =>
        if p.1 = enumField then p else (p.1, traverse res p.2))) =
      (lookupKey k kvs).map (traverse res) := by
  induction kvs with
  | nil => simp [lookupKey]
  | cons q t ih =>
    by_cases hq : q.1 = k
    · have hqe : ¬(q.1 = enumField) := by rw [hq]; exact hk
      simp only [List.map_cons, if_neg hqe]
      rw [lookupKey, lookupKey, if_pos hq, if_pos hq]
      simp
    · by_cases hqe : q.1 = enumField
      · simp only [List.map_cons, if_pos hqe]
        rw [lookupKey, lookupKey, if_neg hq, if_neg hq]
        exact ih
      · simp only [List.map_cons, if_neg hqe]
        rw [lookupKey, lookupKey]
        simp only [if_neg hq]
        exact ih

theorem lookupKey_delKey_other {k k' : String} (hk : k ≠ k')
    (l : List (String × Json)) : lookupKey k (delKey l k') = lookupKey k l := by
  induction l with
  | nil => simp [delKey, lookupKey]
  | cons q t ih =>
    rw [delKey, List.filter_cons]
    by_cases hq : q.1 = k'
    · rw [if_neg (by simp [hq])]
      have h2 : ¬(q.1 = k) := by rw [hq]; exact fun h => hk h.symm
      rw [show lookupKey k (q :: t) = lookupKey k t from by
        rw [lookupKey, if_neg h2]]
      simpa [delKey] using ih
    · rw [if_pos (by simp [hq])]
      rw [lookupKey, lookupKey]
      by_cases hqk : q.1 = k
      · simp [hqk]
      · simp only [if_neg hqk]
        simpa [delKey] using ih

theorem lookupKey_mapSetPairs {k k' : String} (hk : k ≠ k')
    (l : List (String × Json)) (v : Json) :
    lookupKey k (l.map (fun p => if p.1 = k' then (k', v) else p)) =
      lookupKey k l := by
  induction l with
  | nil => simp [lookupKey]
  | cons q t ih =>
    by_cases hq : q.1 = k'
    · simp only [List.map_cons, if_pos hq]
      rw [lookupKey, lookupKey, if_neg (fun h2 => hk h2.symm),
        if_neg (by rw [hq]; exact fun h2 => hk h2.symm)]
      exact ih
    · simp only [List.map_cons, if_neg hq]
      rw [lookupKey, lookupKey]
      by_cases hqk : q.1 = k
      · simp [hqk]
      · simp only [if_neg hqk]
        exact ih

theorem lookupKey_append_single_other {k k' : String} (hk : k ≠ k')
    (l : List (String × Json)) (v : Json) :
    lookupKey k (l ++ [(k', v)]) = lookupKey k l := by
  induction l with
  | nil =>
    have hk' : ¬(k' = k) := fun h2 => hk h2.symm
    simp [lookupKey, hk']
  | cons q t ih =>
    rw [List.cons_append, lookupKey, lookupKey]
    by_cases hqk : q.1 = k
    · simp [hqk]
    · simp only [if_neg hqk]
      exact ih

theorem lookupKey_setKey_other {k k' : String} (hk : k ≠ k')
    (l : List (String × Json)) (v : Json) :
    lookupKey k (setKey l k' v) = lookupKey k l := by
  unfold setKey
  by_cases h : (l.any (fun p => p.1 = k')) = true
  · rw [if_pos h]
    exact lookupKey_mapSetPairs hk l v
  · rw [if_neg h]
    exact lookupKey_append_single_other hk l v

theorem lookupKey_eq_none_of_all {k : String} {l : List (String × Json)}
    (h : ∀ p ∈ l, p.1 ≠ k) : lookupKey k l = none :=
  lookupKey_eq_none.mpr h

/-- **C10 (amended).** Frame behaviour of the walker on an object node:
(i) every key other than the marker and `enum` is bound in the output
exactly when it is bound in the input, to the walk of its old value;
(ii) the marker key is absent from the output node; (iii) when the node
holds no marker, the node is rewritten pairwise — same keys, same order,
values walked recursively, nothing added or removed; (iv) when the node
holds a marker, the `enum` key is bound to the resolver's sequence —
overwriting any pre-existing `enum` binding of that node. -/
theorem traverse_frame (res : Json → List String)
    (kvs : List (String × Json)) :
    (∀ k, k ≠ enumField → k ≠ "enum" →
      lookupKey k (objEntries (traverse res (.obj kvs))) =
        (lookupKey k kvs).map (traverse res)) ∧
    lookupKey enumField (objEntries (traverse res (.obj kvs))) = none ∧
    (lookupKey enumField kvs = none →
      traverse res (.obj kvs) =
        .obj (kvs.map (fun p => (p.1, traverse res p.2)))) ∧
    (∀ src, lookupKey enumField kvs = some src →
      lookupKey "enum" (objEntries (traverse res (.obj kvs))) =
        some (.arr ((res src).map Json.str))) := by
  refine ⟨?_, ?_, ?_, ?_⟩
  · intro k hke hken
    rw [traverse_obj]
    cases hl : lookupKey enumField kvs with
    | none =>
      simp only [objEntries]
      exact lookupKey_map_entry hke kvs
    | some src =>
      simp only [objEntries]
      rw [lookupKey_setKey_other hken, lookupKey_delKey_other hke]
      exact lookupKey_map_entry hke kvs
  · rw [traverse_obj]
    cases hl : lookupKey enumField kvs with
    | none =>
      simp only [objEntries]
      have hall := lookupKey_eq_none.mp hl
      apply lookupKey_eq_none_of_all
      intro q hq
      rw [List.mem_map] at hq
      obtain ⟨p, hp, rfl⟩ := hq
      rw [if_neg (hall p hp)]
      exact hall p hp
    | some src =>
      simp only [objEntries]
      rw [lookupKey_setKey_other (by decide)]
      apply lookupKey_eq_none_of_all
      intro q hq
      exact (mem_delKey hq).2
  · intro hl
    rw [traverse_obj, hl]
    simp only
    congr 1
    apply List.map_congr_left
    intro p hp
    rw [if_neg (lookupKey_eq_none.mp hl p hp)]
  · intro src hl
    rw [traverse_obj, hl]
    simp only [objEntries]
    exact lookupKey_setKey_self _ _ _

/-- Counterexample to the unamended frame claim: in an object holding both
a pre-existing `enum` binding and an enum-source marker, the walker
overwrites the `enum` pair's value with the resolver's sequence, even
though `enum` is not the marker key and its old value, a scalar, is left
unchanged by any walk of that value alone. -/
theorem traverse_frame_counterexample :
    processSchemaTemplate resFix
        (.obj [("enum", .str "old"), ("enumSource", .str "dir")]) =
      .obj [("enum", .arr [.str "a", .str "b"])] ∧
    processSchemaTemplate resFix (.str "old") = .str "old" := by
  constructor
  · rw [processSchemaTemplate, traverse_obj]
    rw [show lookupKey enumField
        [("enum", Json.str "old"), ("enumSource", Json.str "dir")] =
        some (Json.str "dir") from by
      rw [lookupKey, if_neg (by decide), lookupKey, if_pos (by decide)]]
    simp [enumField, delKey, setKey, resFix, traverse_str]
  · rw [processSchemaTemplate, traverse_str]

/-- Witness for the amended C10 at a concrete node: the `description` pair
survives with its value walked, the marker is gone, a marker-free sibling
node is rewritten pairwise, and the `enum` key holds the resolved
sequence. -/
theorem traverse_frame_witness :
    lookupKey "description" (objEntries (traverse resFix (.obj kvsFix))) =
      some (.str "d") ∧
    lookupKey enumField (objEntries (traverse resFix (.obj kvsFix))) = none ∧
    traverse resFix (.obj [("type", .str "object")]) =
      .obj [("type", .str "object")] ∧
    lookupKey "enum" (objEntries (traverse resFix (.obj kvsFix))) =
      some (.arr [.str "a", .str "b"]) := by
  refine ⟨?_, ?_, ?_, ?_⟩
  · have h := (traverse_frame resFix kvsFix).1 "description"
      (by decide) (by decide)
    rw [h]
    rw [show lookupKey "description" kvsFix = some (Json.str "d") from by
      rw [kvsFix, lookupKey, if_neg (by decide), lookupKey, if_pos (by decide)]]
    simp [traverse_str]
  · exact (traverse_frame resFix kvsFix).2.1
  · have h := (traverse_frame resFix [("type", .str "object")]).2.2.1
      (by rw [lookupKey, if_neg (by decide), lookupKey])
    rw [h]
    simp [traverse_str]
  · have h := (traverse_frame resFix kvsFix).2.2.2
      (.obj [("file", .str "data.yaml"), ("property", .str "v")])
      (by rw [kvsFix, lookupKey, if_pos (by decide)])
    simpa [resFix] using h

/-! ### C4, C5: template registry lookup -/

theorem mem_mapValues_mapSet {v : SchemaTemplate}
    {m : List (String × SchemaTemplate)} {k : String} {t : SchemaTemplate}
    (h : v ∈ mapValues (mapSet m k t)) : v ∈ mapValues m ∨ v = t := by
  unfold mapSet at h
  by_cases ha : (m.any (fun p => p.1 = k)) = true
  · rw [if_pos ha] at h
    unfold mapValues at h
    rw [List.map_map, List.mem_map] at h
    obtain ⟨p, hp, hpv⟩ := h
    by_cases hpk : p.1 = k
    · simp only [Function.comp_apply, if_pos hpk] at hpv
      exact Or.inr hpv.symm
    · simp only [Function.comp_apply, if_neg hpk] at hpv
      exact Or.inl (by unfold mapValues; rw [List.mem_map]; exact ⟨p, hp, hpv⟩)
  · rw [if_neg ha] at h
    unfold mapValues at h
    rw [List.map_append, List.mem_append] at h
    rcases h with h2 | h2
    · exact Or.inl h2
    · simp at h2
      exact Or.inr h2

theorem mem_of_mem_mapValues_foldl {P : SchemaTemplate → Prop} :
    ∀ (ts : List SchemaTemplate) (acc : List (String × SchemaTemplate)),
    (∀ v ∈ mapValues acc, P v) → (∀ t ∈ ts, P t) →
    ∀ v ∈ mapValues (ts.foldl (fun m t => mapSet m t.name t) acc), P v := by
  intro ts
  induction ts with
  | nil =>
    intro acc hacc _ v hv
    exact hacc v hv
  | cons t rest ih =>
    intro acc hacc hts v hv
    rw [List.foldl_cons] at hv
    refine ih (mapSet acc t.name t) ?_ ?_ v hv
    · intro w hw
      rcases mem_mapValues_mapSet hw with hw2 | h3
      · exact hacc w hw2
      · rw [h3]
        exact hts _ (List.mem_cons_self _ rest)
    · exact fun t' ht' => hts t' (List.mem_cons_of_mem t ht')

theorem mem_of_mem_buildTemplates {ts : List SchemaTemplate}
    {v : SchemaTemplate} (h : v ∈ mapValues (buildTemplates ts)) : v ∈ ts := by
  refine mem_of_mem_mapValues_foldl ts [] ?_ (fun t ht => ht) v h
  intro w hw
  simp [mapValues] at hw

theorem eq_of_same_filePattern {ts : List SchemaTemplate}
    (hdist : List.Pairwise (fun a b => a.filePattern ≠ b.filePattern) ts)
    {a b : SchemaTemplate} (ha : a ∈ ts) (hb : b ∈ ts)
    (hfp : a.filePattern = b.filePattern) : a = b := by
  induction ts with
  | nil => simp at ha
  | cons t rest ih =>
    rw [List.pairwise_cons] at hdist
    rcases List.mem_cons.mp ha with rfl | ha2
    · rcases List.mem_cons.mp hb with rfl | hb2
      · rfl
      · exact absurd hfp (hdist.1 b hb2)
    · rcases List.mem_cons.mp hb with rfl | hb2
      · exact absurd hfp.symm (hdist.1 a ha2)
      · exact ih hdist.2 ha2 hb2

theorem jsStrEq_iff {j : Json} {s : String} :
    jsStrEq j s = true ↔ j = .str s := by
  cases j <;> simp [jsStrEq]

/-- **C4.** In a registry built from templates with pairwise-distinct
`filePattern` values, looking up any registry member's own (string)
pattern returns exactly that member — never not-found and never a
different template. -/
theorem matchByFileName_self (ts : List SchemaTemplate) (T : SchemaTemplate)
    (p : String)
    (hdist : List.Pairwise (fun a b => a.filePattern ≠ b.filePattern) ts)
    (hT : T ∈ mapValues (buildTemplates ts))
    (hp : T.filePattern = .str p) :
    matchByFileName (buildTemplates ts) p = some T := by
  unfold matchByFileName
  cases hfind : (mapValues (buildTemplates ts)).find?
      (fun t => jsStrEq t.filePattern p) with
  | none =>
    exfalso
    have := List.find?_eq_none.mp hfind T hT
    rw [jsStrEq_iff] at this
    exact this hp
  | some v =>
    have hvmem : v ∈ mapValues (buildTemplates ts) :=
      List.mem_of_find?_eq_some hfind
    have hvpred := List.find?_some hfind
    rw [jsStrEq_iff] at hvpred
    have : v = T :=
      eq_of_same_filePattern hdist (mem_of_mem_buildTemplates hvmem)
        (mem_of_mem_buildTemplates hT) (by rw [hvpred, hp])
    rw [this]

/-- Witness for C4 with two distinct-pattern templates. -/
theorem matchByFileName_self_witness :
    matchByFileName (buildTemplates
      [⟨"t1", .str "a.yaml", "s1"⟩, ⟨"t2", .str "b.yaml", "s2"⟩]) "b.yaml" =
      some ⟨"t2", .str "b.yaml", "s2"⟩ := by
  apply matchByFileName_self
      [⟨"t1", .str "a.yaml", "s1"⟩, ⟨"t2", .str "b.yaml", "s2"⟩]
      ⟨"t2", .str "b.yaml", "s2"⟩ "b.yaml"
  · refine List.pairwise_cons.mpr ⟨?_, List.pairwise_singleton _ _⟩
    intro b hb
    rw [List.mem_singleton] at hb
    rw [hb]
    simp
  · simp [buildTemplates, mapSet, mapValues]
  · rfl

/-- With pairwise-distinct names the map never overwrites: the registry's
value sequence is the registration sequence itself. -/
theorem buildTemplates_values_of_distinct_names :
    ∀ (ts : List SchemaTemplate) (acc : List (String × SchemaTemplate)),
    (∀ t ∈ ts, ∀ q ∈ acc, q.1 ≠ t.name) →
    List.Pairwise (fun a b => a.name ≠ b.name) ts →
    ts.foldl (fun m t => mapSet m t.name t) acc =
      acc ++ ts.map (fun t => (t.name, t)) := by
  intro ts
  induction ts with
  | nil => intro acc _ _; simp
  | cons t rest ih =>
    intro acc hacc hnames
    rw [List.foldl_cons]
    have hstep : mapSet acc t.name t = acc ++ [(t.name, t)] := by
      unfold mapSet
      rw [if_neg ?_]
      rw [List.any_eq_true]
      push_neg
      intro q hq h2
      exact hacc t (List.mem_cons_self t rest) q hq (of_decide_eq_true h2)
    rw [hstep]
    rw [List.pairwise_cons] at hnames
    rw [ih (acc ++ [(t.name, t)]) ?_ hnames.2]
    · rw [List.map_cons, List.append_assoc, List.singleton_append]
    · intro t' ht' q hq
      rcases List.mem_append.mp hq with hq2 | hq2
      · exact hacc t' (List.mem_cons_of_mem t ht') q hq2
      · rw [List.mem_singleton] at hq2
        rw [hq2]
        exact fun h => (hnames.1 t' ht') h

/-- **C5.** When registered template names are pairwise distinct,
`matchByFileName` scans the registry in registration order: the result is
the first registered template whose pattern equals the file name — a
defined result, so in particular ties between templates with the same
`filePattern` resolve to the one registered first. -/
theorem matchByFileName_insertion_order (ts : List SchemaTemplate)
    (hnames : List.Pairwise (fun a b => a.name ≠ b.name) ts) (p : String) :
    matchByFileName (buildTemplates ts) p =
      ts.find? (fun t => jsStrEq t.filePattern p) := by
  unfold matchByFileName buildTemplates
  rw [buildTemplates_values_of_distinct_names ts [] (by simp) hnames]
  rw [List.nil_append]
  unfold mapValues
  rw [List.map_map]
  have : (fun p => p.2) ∘ (fun t : SchemaTemplate => (t.name, t)) = id := by
    funext t
    rfl
  rw [this, List.map_id]

/-- Witness for C5: two templates share `filePattern` `a.yaml` under
distinct names; the first registered wins. -/
theorem matchByFileName_insertion_order_witness :
    matchByFileName (buildTemplates
      [⟨"t1", .str "a.yaml", "s1"⟩, ⟨"t2", .str "a.yaml", "s2"⟩]) "a.yaml" =
      some ⟨"t1", .str "a.yaml", "s1"⟩ := by
  rw [matchByFileName_insertion_order
      [⟨"t1", .str "a.yaml", "s1"⟩, ⟨"t2", .str "a.yaml", "s2"⟩]
      (by
        refine List.pairwise_cons.mpr ⟨?_, List.pairwise_singleton _ _⟩
        intro b hb
        rw [List.mem_singleton] at hb
        rw [hb]
        simp) "a.yaml"]
  rw [List.find?_cons]
  simp [jsStrEq]

/-! ### C6, C7, C8: the enum resolver -/

theorem mapM_option_all {α β : Type} (f : α → Option β) (g : α → β) :
    ∀ (l : List α), (∀ x ∈ l, f x = some (g x)) →
      l.mapM f = some (l.map g) := by
  intro l
  induction l with
  | nil => intro _; rfl
  | cons a t ih =>
    intro h
    rw [List.mapM_cons, h a (List.mem_cons_self a t),
      ih (fun x hx => h x (List.mem_cons_of_mem a hx))]
    rfl

theorem mapM_option_none {α β : Type} (f : α → Option β) {x : α} :
    ∀ (l : List α), x ∈ l → f x = none → l.mapM f = none := by
  intro l
  induction l with
  | nil => intro hx; simp at hx
  | cons a t ih =>
    intro hx hfx
    rw [List.mapM_cons]
    rcases List.mem_cons.mp hx with rfl | hxt
    · rw [hfx]
      rfl
    · cases hfa : f a with
      | none => rfl
      | some b =>
        rw [ih hxt hfx]
        rfl

/-- **C6.** When the directive's `property` is set (a truthy string), the
resolver returns, for each loaded record in load order, the stringified
value of that field — the output sequence is the `map` of the input
sequence, hence never sorted and never deduplicated. -/
theorem resolveEnum_projection (evalFn : String → Json → Json)
    (src : EnumSource) (records : List Json) (p : String)
    (hp : src.property = some p) (hne : p ≠ "") (vals : Json → String)
    (hall : ∀ r ∈ records, getFieldStr p r = some (vals r)) :
    resolveEnum evalFn src records = some (records.map vals) := by
  unfold resolveEnum
  rw [if_pos (by rw [truthy.eq_def, hp]; simpa using hne)]
  rw [hp]
  exact mapM_option_all _ vals records (by simpa using hall)

/-- Witness for C6: records `[{v:"a"},{v:"b"}]` with `property:"v"` yield
`["a","b"]` in that order. -/
theorem resolveEnum_projection_witness :
    resolveEnum (fun _ r => r) ⟨"data.yaml", some "v", none⟩
      [.obj [("v", .str "a")], .obj [("v", .str "b")]] = some ["a", "b"] := by
  have h := resolveEnum_projection (fun _ r => r)
    ⟨"data.yaml", some "v", none⟩
    [.obj [("v", .str "a")], .obj [("v", .str "b")]] "v" rfl (by decide)
    (fun r => (getFieldStr "v" r).getD "") (by decide)
  rw [h]
  rfl

/-- **C7.** When the directive's `property` is set and any loaded record
lacks that field or holds `null` there, the whole resolution fails (the
`.toString()` call throws): the resolver returns no sequence at all — no
record is skipped and no placeholder value is produced. -/
theorem resolveEnum_missing_field_fails (evalFn : String → Json → Json)
    (src : EnumSource) (records : List Json) (p : String)
    (hp : src.property = some p) (hne : p ≠ "") (r0 : Json)
    (hr0 : r0 ∈ records)
    (hmiss : jsIndex r0 p = none ∨ jsIndex r0 p = some .null) :
    resolveEnum evalFn src records = none := by
  unfold resolveEnum
  rw [if_pos (by rw [truthy.eq_def, hp]; simpa using hne)]
  rw [hp]
  refine mapM_option_none _ records hr0 ?_
  unfold getFieldStr
  rcases hmiss with h | h
  · rw [show (some p).getD "" = p from rfl, h]
    rfl
  · rw [show (some p).getD "" = p from rfl, h]
    rfl

/-- Witness for C7: the second record lacks the projected field `v`, so
resolution of the whole directive fails. -/
theorem resolveEnum_missing_field_fails_witness :
    resolveEnum (fun _ r => r) ⟨"data.yaml", some "v", none⟩
      [.obj [("v", .str "a")], .obj [("w", .str "b")]] = none :=
  resolveEnum_missing_field_fails (fun _ r => r)
    ⟨"data.yaml", some "v", none⟩
    [.obj [("v", .str "a")], .obj [("w", .str "b")]] "v" rfl (by decide)
    (.obj [("w", .str "b")]) (by simp) (Or.inl rfl)

/-- **C8.** The extraction-strategy cascade of the resolver: when
`property` is truthy, the result is the field projection and is
independent of the `expression` field and of the expression compiler
(the expression is never evaluated); else when `expression` is truthy,
the result applies the compiled one-argument transform to every record
and stringifies; else the result is the empty sequence — a defined
value, not an error. -/
theorem resolveEnum_strategy_cascade (evalFn evalFn2 : String → Json → Json)
    (src : EnumSource) (records : List Json) :
    (truthy src.property = true →
      resolveEnum evalFn src records =
        records.mapM (getFieldStr (src.property.getD "")) ∧
      ∀ e, resolveEnum evalFn2 ⟨src.file, src.property, e⟩ records =
        resolveEnum evalFn src records) ∧
    (truthy src.property = false → truthy src.expression = true →
      resolveEnum evalFn src records =
        records.mapM (fun r => jsToStrOpt (evalFn (src.expression.getD "") r))) ∧
    (truthy src.property = false → truthy src.expression = false →
      resolveEnum evalFn src records = some []) := by
  refine ⟨?_, ?_, ?_⟩
  · intro hprop
    constructor
    · unfold resolveEnum
      rw [if_pos hprop]
    · intro e
      unfold resolveEnum
      rw [if_pos hprop, if_pos hprop]
  · intro hprop hexpr
    unfold resolveEnum
    rw [if_neg (by rw [hprop]; exact Bool.false_ne_true), if_pos hexpr]
  · intro hprop hexpr
    unfold resolveEnum
    rw [if_neg (by rw [hprop]; exact Bool.false_ne_true),
      if_neg (by rw [hexpr]; exact Bool.false_ne_true)]

/-- Witness for C8, exercising all three branches of the cascade at
concrete directives: a set `property` wins (and the expression field is
ignored), a set `expression` alone drives the transform, and a directive
with neither resolves to the empty sequence. -/
theorem resolveEnum_strategy_cascade_witness :
    (resolveEnum (fun _ r => r) ⟨"f", some "v", some "junk"⟩
        [.obj [("v", .str "a")]] =
      [Json.obj [("v", .str "a")]].mapM (getFieldStr "v") ∧
     resolveEnum (fun _ _ => .str "IGNORED") ⟨"f", some "v", some "other"⟩
        [.obj [("v", .str "a")]] =
      resolveEnum (fun _ r => r) ⟨"f", some "v", some "junk"⟩
        [.obj [("v", .str "a")]]) ∧
    resolveEnum (fun _ _ => .str "E") ⟨"f", none, some "i2"⟩
        [.obj [("n", .num 1)]] =
      [Json.obj [("n", .num 1)]].mapM
        (fun r => jsToStrOpt ((fun _ _ => Json.str "E") "i2" r)) ∧
    resolveEnum (fun _ r => r) ⟨"f", none, none⟩ [.obj [("n", .num 1)]] =
      some [] := by
  refine ⟨⟨?_, ?_⟩, ?_, ?_⟩
  · exact ((resolveEnum_strategy_cascade (fun _ r => r) (fun _ r => r)
      ⟨"f", some "v", some "junk"⟩ [.obj [("v", .str "a")]]).1 (by decide)).1
  · exact ((resolveEnum_strategy_cascade (fun _ r => r)
      (fun _ _ => Json.str "IGNORED") ⟨"f", some "v", some "junk"⟩
      [.obj [("v", .str "a")]]).1 (by decide)).2 (some "other")
  · exact (resolveEnum_strategy_cascade (fun _ _ => Json.str "E")
      (fun _ _ => Json.str "E") ⟨"f", none, some "i2"⟩
      [.obj [("n", .num 1)]]).2.1 (by decide) (by decide)
  · exact (resolveEnum_strategy_cascade (fun _ r => r) (fun _ r => r)
      ⟨"f", none, none⟩ [.obj [("n", .num 1)]]).2.2 (by decide) (by decide)

/-! ### C9: one malformed template aborts the whole load -/

/-- **C9.** If any enumerated plain file of the template directory has
content that `JSON.parse` rejects, the loader produces no template list
and hence no registry at all — the thrown parse error propagates out of
the whole load, and no partially populated registry exists to be
observed by later requests. -/
theorem loadSchemas_aborts_on_bad_parse (parse : String → Option Json)
    (read : String → String) (entries : List (String × FileType)) (n : String)
    (hmem : (n, FileType.file) ∈ entries) (hbad : parse (read n) = none) :
    loadSchemas parse read entries = none ∧
    (loadSchemas parse read entries).map buildTemplates = none := by
  have main : loadSchemas parse read entries = none := by
    induction entries with
    | nil => simp at hmem
    | cons e rest ih =>
      obtain ⟨m, ft⟩ := e
      rw [loadSchemas]
      rcases List.mem_cons.mp hmem with heq | hrest
      · injection heq with h1 h2
        rw [if_pos h2.symm, ← h1, hbad]
      · by_cases hft : ft = FileType.file
        · rw [if_pos hft]
          cases hp : parse (read m) with
          | none => rfl
          | some obj =>
            rw [ih hrest]
            rfl
        · rw [if_neg hft]
          exact ih hrest
  exact ⟨main, by rw [main]; rfl⟩

/-- Witness for C9: a two-file directory where the second file's content
is unparsable. -/
theorem loadSchemas_aborts_on_bad_parse_witness :
    loadSchemas (fun s => if s = "{}" then some (.obj []) else none) id
      [("good.json", FileType.file), ("bad.json", FileType.file)] = none := by
  have h := loadSchemas_aborts_on_bad_parse
    (fun s => if s = "{}" then some (.obj []) else none) id
    [("good.json", FileType.file), ("bad.json", FileType.file)] "bad.json"
    (by simp) rfl
  exact h.1

/-! ### Decimal rendering: `toString (idx : Nat)` and its re-parse -/

/-- The decimal digit string of a natural number, most significant digit
first (the character sequence `Nat.repr` produces). -/
def natDigits (n : Nat) : List Char :=
  if n < 10 then [Nat.digitChar n]
  else natDigits (n / 10) ++ [Nat.digitChar (n % 10)]
termination_by n
decreasing_by
  exact Nat.div_lt_self (by omega) (by omega)

theorem natDigits_lt {n : Nat} (h : n < 10) :
    natDigits n = [Nat.digitChar n] := by
  rw [natDigits, if_pos h]

theorem natDigits_ge {n : Nat} (h : ¬n < 10) :
    natDigits n = natDigits (n / 10) ++ [Nat.digitChar (n % 10)] := by
  rw [natDigits]
  exact if_neg h

theorem toDigitsCore_eq_natDigits :
    ∀ (fuel n : Nat) (ds : List Char), n < fuel →
      Nat.toDigitsCore 10 fuel n ds = natDigits n ++ ds := by
  intro fuel
  induction fuel with
  | zero => intro n ds h; omega
  | succ f ih =>
    intro n ds h
    rw [Nat.toDigitsCore]
    by_cases h10 : n < 10
    · rw [if_pos (by omega : n / 10 = 0)]
      rw [natDigits_lt h10, Nat.mod_eq_of_lt h10]
      rfl
    · rw [if_neg (by omega : ¬(n / 10 = 0))]
      have hlt : n / 10 < f := by
        have := Nat.div_lt_self (by omega : 0 < n) (by omega : 1 < 10)
        omega
      rw [ih (n / 10) (Nat.digitChar (n % 10) :: ds) hlt]
      rw [natDigits_ge h10, List.append_assoc, List.singleton_append]

theorem repr_data_eq_natDigits (n : Nat) : (Nat.repr n).data = natDigits n := by
  rw [Nat.repr, Nat.toDigits]
  rw [toDigitsCore_eq_natDigits (n + 1) n [] (Nat.lt_succ_self n)]
  rw [List.append_nil]
  rfl

/-- Every character of a decimal rendering is one of the ten digits. -/
theorem natDigits_mem_digits :
    ∀ (n : Nat), ∀ c ∈ natDigits n,
      c ∈ ['0', '1', '2', '3', '4', '5', '6', '7', '8', '9'] := by
  intro n
  induction n using Nat.strong_induction_on with
  | _ n ih =>
    intro c hc
    by_cases h10 : n < 10
    · rw [natDigits_lt h10] at hc
      rw [List.mem_singleton] at hc
      subst hc
      interval_cases n <;> decide
    · rw [natDigits_ge h10] at hc
      rcases List.mem_append.mp hc with h | h
      · exact ih (n / 10) (Nat.div_lt_self (by omega) (by omega)) c h
      · rw [List.mem_singleton] at h
        subst h
        have : n % 10 < 10 := Nat.mod_lt n (by omega)
        interval_cases hm : (n % 10) <;> simp [hm] <;> decide

theorem natDigits_ne_nil (n : Nat) : natDigits n ≠ [] := by
  by_cases h10 : n < 10
  · rw [natDigits_lt h10]
    simp
  · rw [natDigits_ge h10]
    simp

theorem digitChar_val {m : Nat} (h : m < 10) :
    (Nat.digitChar m).toNat - '0'.toNat = m := by
  interval_cases m <;> decide

theorem jsDigitsToNat_aux :
    ∀ (n a : Nat),
      List.foldl (fun a c => a * 10 + (c.toNat - '0'.toNat)) a (natDigits n) =
        a * 10 ^ (natDigits n).length + n := by
  intro n
  induction n using Nat.strong_induction_on with
  | _ n ih =>
    intro a
    by_cases h10 : n < 10
    · rw [natDigits_lt h10, List.foldl_cons, List.foldl_nil,
        List.length_singleton, pow_one, digitChar_val h10]
    · rw [natDigits_ge h10]
      rw [List.foldl_append]
      rw [ih (n / 10) (Nat.div_lt_self (by omega) (by omega)) a]
      rw [List.foldl_cons, List.foldl_nil]
      rw [digitChar_val (Nat.mod_lt n (by omega))]
      rw [List.length_append, List.length_singleton, pow_succ]
      have hdm := Nat.div_add_mod n 10
      ring_nf
      omega

theorem jsDigitsToNat_natDigits (n : Nat) :
    jsDigitsToNat (natDigits n) = n := by
  unfold jsDigitsToNat
  rw [jsDigitsToNat_aux n 0]
  simp

theorem decPrefix_all_digits {cs : List Char} (hne : cs ≠ [])
    (hall : ∀ c ∈ cs, c.isDigit = true) :
    decPrefix cs = some (jsDigitsToNat cs) := by
  unfold decPrefix
  rw [List.takeWhile_eq_self_iff.mpr hall, if_neg hne]

theorem jsParseIntBody_all_digits {cs : List Char} (hne : cs ≠ [])
    (hall : ∀ c ∈ cs, c.isDigit = true) :
    jsParseIntBody cs = some (jsDigitsToNat cs) := by
  cases cs with
  | nil => exact absurd rfl hne
  | cons c1 t =>
    cases t with
    | nil => exact decPrefix_all_digits (by simp) hall
    | cons c2 rest =>
      rw [jsParseIntBody]
      rw [if_neg ?_]
      · exact decPrefix_all_digits (by simp) hall
      · rintro ⟨h1, h2⟩
        have hd2 := hall c2 (by simp)
        rcases h2 with h2 | h2 <;> rw [h2] at hd2 <;>
          exact absurd hd2 (by decide)

/-- Re-parsing the decimal rendering of a natural number with JS
`parseInt` recovers the number. -/
theorem jsParseInt_repr (n : Nat) : jsParseInt (Nat.repr n) = some (n : Int) := by
  have hdata := repr_data_eq_natDigits n
  have hdig : ∀ c ∈ (Nat.repr n).data, c.isDigit = true := by
    rw [hdata]
    intro c hc
    have := natDigits_mem_digits n c hc
    fin_cases this <;> decide
  have hmem : ∀ c ∈ (Nat.repr n).data,
      c ∈ ['0', '1', '2', '3', '4', '5', '6', '7', '8', '9'] := by
    rw [hdata]
    exact natDigits_mem_digits n
  have hne : (Nat.repr n).data ≠ [] := by
    rw [hdata]
    exact natDigits_ne_nil n
  unfold jsParseInt
  have hdrop : (Nat.repr n).data.dropWhile Char.isWhitespace =
      (Nat.repr n).data := by
    cases hcs : (Nat.repr n).data with
    | nil => rfl
    | cons c t =>
      rw [List.dropWhile_cons, if_neg ?_]
      have := hmem c (by rw [hcs]; exact List.mem_cons_self c t)
      fin_cases this <;> decide
  rw [hdrop]
  obtain ⟨c, t, hct⟩ : ∃ c t, (Nat.repr n).data = c :: t := by
    cases hcs : (Nat.repr n).data with
    | nil => exact absurd hcs hne
    | cons c t => exact ⟨c, t, rfl⟩
  have hcmem := hmem c (by rw [hct]; exact List.mem_cons_self c t)
  rw [hct]
  rw [if_neg (by simp only [List.headD_cons]; fin_cases hcmem <;> decide)]
  rw [if_neg (by simp only [List.headD_cons]; fin_cases hcmem <;> decide)]
  rw [← hct]
  rw [jsParseIntBody_all_digits hne hdig]
  simp [hdata, jsDigitsToNat_natDigits]

/-! ### C2, C3: the resolution address codec -/

theorem splitBefore_special_cons {sp : List Char} {c : Char} (h : c ∈ sp)
    (l : List Char) : splitBefore sp (c :: l) = ([], c :: l) := by
  rw [splitBefore, if_pos h]

theorem splitBefore_nonspecial_cons {sp : List Char} {c : Char} (h : c ∉ sp)
    (l : List Char) :
    splitBefore sp (c :: l) =
      (c :: (splitBefore sp l).1, (splitBefore sp l).2) := by
  rw [splitBefore, if_neg h]

theorem splitBefore_append_special {sp l1 l2 : List Char} {d : Char}
    (h : ∀ c ∈ l1, c ∉ sp) (hd : d ∈ sp) :
    splitBefore sp (l1 ++ d :: l2) = (l1, d :: l2) := by
  induction l1 with
  | nil => rw [List.nil_append]; exact splitBefore_special_cons hd l2
  | cons c t ih =>
    rw [List.cons_append,
      splitBefore_nonspecial_cons (h c (List.mem_cons_self c t)) _,
      ih (fun x hx => h x (List.mem_cons_of_mem c hx))]

theorem splitBefore_all_nonspecial {sp l : List Char}
    (h : ∀ c ∈ l, c ∉ sp) : splitBefore sp l = (l, []) := by
  induction l with
  | nil => rfl
  | cons c t ih =>
    rw [splitBefore_nonspecial_cons (h c (List.mem_cons_self c t)) _,
      ih (fun x hx => h x (List.mem_cons_of_mem c hx))]

theorem splitOnChar_sep_cons (sep : Char) (l : List Char) :
    splitOnChar sep (sep :: l) = [] :: splitOnChar sep l := by
  rw [splitOnChar]
  simp

theorem splitOnChar_no_sep {sep : Char} {l : List Char} (h : sep ∉ l) :
    splitOnChar sep l = [l] := by
  induction l with
  | nil => rfl
  | cons c t ih =>
    have hc : ¬(c = sep) := fun he =>
      h (he ▸ List.mem_cons_self c t)
    rw [splitOnChar]
    rw [ih (fun ht => h (List.mem_cons_of_mem c ht))]
    simp [hc]

theorem splitOnChar_append_sep {sep : Char} {l1 l2 : List Char}
    (h : sep ∉ l1) :
    splitOnChar sep (l1 ++ sep :: l2) = l1 :: splitOnChar sep l2 := by
  induction l1 with
  | nil => rw [List.nil_append, splitOnChar_sep_cons]
  | cons c t ih =>
    have hc : ¬(c = sep) := fun he =>
      h (he ▸ List.mem_cons_self c t)
    rw [List.cons_append, splitOnChar]
    rw [ih (fun ht => h (List.mem_cons_of_mem c ht))]
    simp [hc]

/-- A decimal rendering contains only digit characters. -/
theorem not_mem_repr_of_not_digit {c : Char}
    (h : c ∉ ['0', '1', '2', '3', '4', '5', '6', '7', '8', '9'])
    (idx : Nat) : c ∉ (Nat.repr idx).data := by
  intro hc
  rw [repr_data_eq_natDigits] at hc
  exact h (natDigits_mem_digits idx c hc)

theorem mkSchemaUri_data (name : String) (idx : Nat) :
    (mkSchemaUri name idx).data =
      'm' :: 'y' :: 's' :: 'c' :: 'h' :: 'e' :: 'm' :: 'a' :: ':' :: '/' :: '/' :: 's' :: 'c' :: 'h' :: 'e' :: 'm' :: 'a' :: '/' :: (name.data ++ '?' :: ('w' :: 'o' :: 'r' :: 'k' :: 's' :: 'p' :: 'a' :: 'c' :: 'e' :: 'F' :: 'o' :: 'l' :: 'd' :: 'e' :: 'r' :: '=' :: (Nat.repr idx).data)) := by
  have htos : (toString idx) = Nat.repr idx := rfl
  rw [mkSchemaUri, htos, SCHEMA, workspaceFolderQueryParam]
  simp only [String.data_append]
  simp [List.append_assoc]

/-- Evaluation of the `Uri.parse` model on an address built by
`onRequestSchemaURI`, for template names free of the structural
characters. -/
theorem uriParse_mkSchemaUri (name : String) (idx : Nat)
    (h2 : ∀ c ∈ name.data, c ≠ '/' ∧ c ≠ '?' ∧ c ≠ '#') :
    uriParse (mkSchemaUri name idx) =
      { scheme := "myschema", authority := "schema",
        path := String.mk ('/' :: name.data),
        query := String.mk ('w' :: 'o' :: 'r' :: 'k' :: 's' :: 'p' :: 'a' :: 'c' :: 'e' :: 'F' :: 'o' :: 'l' :: 'd' :: 'e' :: 'r' :: '=' :: (Nat.repr idx).data) } := by
  have hname : ∀ c ∈ name.data, c ∉ (['?', '#'] : List Char) := by
    intro c hc
    have := h2 c hc
    simp [this.2.1, this.2.2]
  have hdig : ∀ c ∈ (Nat.repr idx).data, c ∉ (['#'] : List Char) := by
    intro c hc
    rw [repr_data_eq_natDigits] at hc
    have := natDigits_mem_digits idx c hc
    fin_cases this <;> decide
  have hpath : splitBefore ['?', '#'] (name.data ++ '?' ::
      ('w' :: 'o' :: 'r' :: 'k' :: 's' :: 'p' :: 'a' :: 'c' :: 'e' :: 'F' :: 'o' :: 'l' :: 'd' :: 'e' :: 'r' :: '=' :: (Nat.repr idx).data)) =
      (name.data, '?' :: ('w' :: 'o' :: 'r' :: 'k' :: 's' :: 'p' :: 'a' :: 'c' :: 'e' :: 'F' :: 'o' :: 'l' :: 'd' :: 'e' :: 'r' :: '=' :: (Nat.repr idx).data)) :=
    splitBefore_append_special hname (by decide)
  have hquery : splitBefore ['#'] ((Nat.repr idx).data) =
      ((Nat.repr idx).data, []) :=
    splitBefore_all_nonspecial hdig
  unfold uriParse
  rw [mkSchemaUri_data name idx]
  simp [splitBefore, hpath, hquery]

/-- **C2.** Decoding an address built by the encoder recovers exactly the
template name and the workspace-folder selector: the extraction of
`onRequestSchemaContent` returns the same name together with the decimal
selector string, and `parseInt` turns that string back into the selector.
Valid template names are nonempty and free of the URI-structural
characters `/`, `?`, `#` and of `%` (percent-decoding). -/
theorem address_roundtrip (name : String) (idx : Nat) (h1 : name ≠ "")
    (h2 : ∀ c ∈ name.data, c ≠ '/' ∧ c ≠ '?' ∧ c ≠ '#' ∧ c ≠ '%') :
    extractSchemaAddress (mkSchemaUri name idx) =
      some (name, toString idx) ∧
    jsParseInt (toString idx) = some (idx : Int) := by
  constructor
  · have hndata : name.data ≠ [] := by
      intro h0
      exact h1 (by cases name; simp at h0; rw [h0])
    unfold extractSchemaAddress
    rw [uriParse_mkSchemaUri name idx
      (fun c hc => ⟨(h2 c hc).1, (h2 c hc).2.1, (h2 c hc).2.2.1⟩)]
    dsimp only
    rw [if_neg (show ¬("myschema" ≠ SCHEMA) from by decide)]
    rw [splitOnChar_sep_cons]
    rw [splitOnChar_no_sep (fun hmem => ((h2 '/' hmem).1) rfl)]
    rw [show (([] : List Char) :: [name.data]).getLastD [] = name.data from rfl]
    rw [if_neg hndata]
    have hamp : ('&' : Char) ∉ ('w' :: 'o' :: 'r' :: 'k' :: 's' :: 'p' :: 'a' :: 'c' :: 'e' :: 'F' :: 'o' :: 'l' :: 'd' :: 'e' :: 'r' :: '=' :: (Nat.repr idx).data) := by
      intro hmem
      simp only [List.mem_cons] at hmem
      rcases hmem with h | hmem
      · exact absurd h (by decide)
      iterate 15
        (rcases hmem with h | hmem
         · exact absurd h (by decide))
      exact not_mem_repr_of_not_digit (by decide) idx hmem
    rw [splitOnChar_no_sep hamp]
    rw [List.map_singleton]
    rw [show ('w' :: 'o' :: 'r' :: 'k' :: 's' :: 'p' :: 'a' :: 'c' :: 'e' :: 'F' :: 'o' :: 'l' :: 'd' :: 'e' :: 'r' :: '=' :: (Nat.repr idx).data) =
      ['w', 'o', 'r', 'k', 's', 'p', 'a', 'c', 'e', 'F', 'o', 'l', 'd', 'e', 'r'] ++ '=' :: (Nat.repr idx).data from rfl]
    rw [splitOnChar_append_sep (by decide)]
    rw [splitOnChar_no_sep (not_mem_repr_of_not_digit (by decide) idx)]
    rw [List.find?_cons_of_pos _ (by rw [List.headD_cons]; decide)]
    simp only [List.get?_cons_succ, List.get?_cons_zero]
    rw [if_neg ?_]
    · have hmkname : String.mk name.data = name := by cases name; rfl
      have hmkidx : String.mk (Nat.repr idx).data = toString idx := by rfl
      rw [hmkname, hmkidx]
    · rw [repr_data_eq_natDigits]
      exact natDigits_ne_nil idx
  · exact jsParseInt_repr idx

/-- Witness for C2 at template name `foo` and selector `2`. -/
theorem address_roundtrip_witness :
    extractSchemaAddress (mkSchemaUri "foo" 2) = some ("foo", "2") ∧
    jsParseInt "2" = some 2 :=
  address_roundtrip "foo" 2 (by decide) (by decide)


/-- Counterexample to the claim that the accepted selector is parsed as a
base-10 non-negative integer: the decoder accepts the selector string
`abc`, which `parseInt` turns into `NaN`, and `Array.prototype.at`
then silently resolves to data root 0; likewise `-1` is accepted, parses
negative, and resolves to the last data root instead of being rejected. -/
theorem selector_parsing_counterexample :
    extractSchemaAddress "myschema://schema/foo?workspaceFolder=abc" =
      some ("foo", "abc") ∧
    jsParseInt "abc" = none ∧
    resolveFolder ["root0", "root1"] "abc" = some "root0" ∧
    jsParseInt "-1" = some (-1) ∧
    resolveFolder ["root0", "root1"] "-1" = some "root1" :=
  ⟨rfl, rfl, rfl, rfl, rfl⟩

/-- **C3 (amended).** The decoder reports malformed (returns nothing) on
an address whose template-name path segment or `workspaceFolder` query
parameter is missing or empty, and every accepted address yields nonempty
name and selector components — no default is substituted during
extraction.  The selector string is then interpreted by `parseInt` at
indexing time: a canonical non-negative decimal selector resolves by
plain list indexing, so a well-formed out-of-range selector is rejected
only there; but a selector with no leading digits parses to `NaN` and
silently resolves to data root 0. -/
theorem extractSchemaAddress_amended {α : Type} :
    (∀ (s : String) (n i : String),
      extractSchemaAddress s = some (n, i) → n ≠ "" ∧ i ≠ "") ∧
    extractSchemaAddress "myschema://schema/foo" = none ∧
    extractSchemaAddress "myschema://schema?workspaceFolder=1" = none ∧
    (∀ (folders : List α) (k : Nat),
      resolveFolder folders (toString k) = folders.get? k) ∧
    (∀ (folders : List α) (i : String), jsParseInt i = none →
      resolveFolder folders i = folders.get? 0) := by
  refine ⟨?_, rfl, rfl, ?_, ?_⟩
  · intro s n i h
    unfold extractSchemaAddress at h
    dsimp only at h
    split at h
    · exact absurd h (by simp)
    next hscheme =>
      split at h
      · exact absurd h (by simp)
      next hname =>
        split at h
        · exact absurd h (by simp)
        next v hfind =>
          split at h
          · exact absurd h (by simp)
          next idx hget =>
            split at h
            · exact absurd h (by simp)
            next hidx =>
              rw [Option.some_inj] at h
              have h1 := congrArg Prod.fst h
              have h2 := congrArg Prod.snd h
              dsimp only at h1 h2
              constructor
              · intro h0
                apply hname
                have h3 := congrArg String.data h1
                rw [h0] at h3
                simpa using h3
              · intro h0
                apply hidx
                have h3 := congrArg String.data h2
                rw [h0] at h3
                simpa using h3
  · intro folders k
    unfold resolveFolder
    rw [show toString k = Nat.repr k from rfl, jsParseInt_repr k]
    rw [jsAt]
    rw [if_pos (by omega)]
    simp
  · intro folders i h
    unfold resolveFolder
    rw [h]
    rfl

/-- Witness for the amended C3: a well-formed address yields nonempty
components; in-range and out-of-range canonical selectors; a `NaN`
selector resolving to root 0. -/
theorem extractSchemaAddress_amended_witness :
    (("foo" : String) ≠ "" ∧ ("2" : String) ≠ "") ∧
    resolveFolder ["w0", "w1"] (toString 1) = some "w1" ∧
    resolveFolder ["w0", "w1"] (toString 5) = none ∧
    resolveFolder ["w0", "w1"] "zzz" = some "w0" := by
  refine ⟨?_, ?_, ?_, ?_⟩
  · exact (extractSchemaAddress_amended (α := Unit)).1
      "myschema://schema/foo?workspaceFolder=2" "foo" "2" rfl
  · rw [(extractSchemaAddress_amended).2.2.2.1 ["w0", "w1"] 1]
    rfl
  · rw [(extractSchemaAddress_amended).2.2.2.1 ["w0", "w1"] 5]
    rfl
  · rw [(extractSchemaAddress_amended).2.2.2.2 ["w0", "w1"] "zzz" rfl]
    rfl

end YamlSchemas
